import Mathlib

/-!
Shallow embedding of `src/Brute_force.py`, a password-strength estimator:
`common_guess` scans a wordlist for an exact match, `brute_force` enumerates
all fixed-length strings over an inferred character set (via
`itertools.product`) counting attempts, and `main` orchestrates the two.

Modelling decisions:
* File I/O is made explicit: the outcome of `open(path).read().splitlines()`
  is an input of type `OpenOutcome` (`fileNotFound` for the caught
  `FileNotFoundError`, `ioError` for any other `OSError`, `ok` for the list
  of terminator-stripped lines).  `common_guess` returns `Except` so that an
  uncaught exception is visible as `.error`.
* `print` calls (progress reporting, timing) produce no value and do not
  influence control flow in the source, so they are omitted; the
  `print_every` parameter is therefore dropped.
* The local variable `attempts` of `brute_force` is exposed as the second
  component of `brute_force_run`, so that attempt counts are statable;
  `brute_force` itself returns only the `Option String` the Python
  function returns.
-/

namespace BruteForce

/-- Python constant `string.ascii_lowercase`. -/
def ascii_lowercase : List Char := "abcdefghijklmnopqrstuvwxyz".toList

/-- Python constant `string.digits`. -/
def string_digits : List Char := "0123456789".toList

/-- Python constant `string.punctuation` (32 ASCII punctuation characters). -/
def punctuation : List Char :=
  "!\"#$%&\x27()*+,-./:;<=>?@[\\]^_\x60\x7b|\x7d~".toList

/-- Lines 40-46 of `brute_force`: start from lowercase letters, append
digits when `digits` is set, then punctuation when `symbol` is set. -/
def charsFor (digits symbol : Bool) : List Char :=
  let chars := ascii_lowercase
  let chars := if digits then chars ++ string_digits else chars
  let chars := if symbol then chars ++ punctuation else chars
  chars

/-- The success message built on line 24: `f'common match: {w} (#{i})'`. -/
def matchMsg (w : String) (i : Nat) : String := s!"common match: {w} (#{i})"

/-- The success message built on line 61:
`f'"{word}" was cracked in {attempts} guesses.'`. -/
def crackedMsg (word : String) (attempts : Nat) : String :=
  s!"\"{word}\" was cracked in {attempts} guesses."

/-- Result of `open(path, 'r').read().splitlines()`: the file may be absent
(`FileNotFoundError`), opening or reading may fail for another reason
(carrying a description of the failure), or it yields the list of lines with
line terminators stripped. -/
inductive OpenOutcome where
  | fileNotFound : OpenOutcome
  | ioError : String → OpenOutcome
  | ok : List String → OpenOutcome
deriving DecidableEq

/-- The scan loop of `common_guess` (lines 21-26): 1-based enumeration,
return on the first line equal to `word`, else `None` at the end. -/
def common_guess_scan (word : String) : List String → Nat → Option String
  | [], _ => none
  | w :: rest, i =>
    if w = word then some (matchMsg w i) else common_guess_scan word rest (i + 1)

/-- `common_guess` (lines 10-26): `FileNotFoundError` is caught and turned
into `None`; any other I/O failure is not caught and propagates (`.error`);
otherwise the line list is scanned. -/
def common_guess (word : String) (src : OpenOutcome) :
    Except String (Option String) :=
  match src with
  | .fileNotFound => .ok none
  | .ioError e => .error e
  | .ok word_list => .ok (common_guess_scan word word_list 1)

/-- `itertools.product(chars, repeat=length)` as the list of character
tuples in the order the generator yields them: leftmost position most
significant (varies slowest). -/
def product (chars : List Char) : Nat → List (List Char)
  | 0 => [[]]
  | n + 1 => chars.flatMap fun c => (product chars n).map fun t => c :: t

/-- The loop body of `brute_force` (lines 53-69) over the remaining
candidate tuples, threading the `attempts` counter: increment, join and
compare (return the cracked message on equality), then stop with `None`
when `max_attempts` is set and reached.  Returns the Python return value
paired with the final value of `attempts`. -/
def bfLoop (word : String) (max_attempts : Option Nat) :
    Nat → List (List Char) → Option String × Nat
  | attempts, [] => (none, attempts)
  | attempts, combo :: rest =>
    let attempts' := attempts + 1
    let guess_str := String.mk combo
    if guess_str = word then (some (crackedMsg word attempts'), attempts')
    else
      match max_attempts with
      | some k =>
        if k ≤ attempts' then (none, attempts')
        else bfLoop word max_attempts attempts' rest
      | none => bfLoop word max_attempts attempts' rest

/-- `brute_force` (lines 37-75) with its final `attempts` counter exposed:
build the character set, then run the loop over all candidates starting
from `attempts = 0`. -/
def brute_force_run (word : String) (length : Nat) (digits symbol : Bool)
    (max_attempts : Option Nat) : Option String × Nat :=
  bfLoop word max_attempts 0 (product (charsFor digits symbol) length)

/-- `brute_force`'s Python return value (the cracked message, or `None`). -/
def brute_force (word : String) (length : Nat) (digits symbol : Bool)
    (max_attempts : Option Nat) : Option String :=
  (brute_force_run word length digits symbol max_attempts).1

/-- Line 100 of `main`: `any(ch.isdigit() for ch in password)`. -/
def need_digits (password : String) : Bool :=
  password.toList.any fun ch => ch.isDigit

/-- Line 101 of `main`: `any(not ch.isalnum() for ch in password)`. -/
def need_symbols (password : String) : Bool :=
  password.toList.any fun ch => !ch.isAlphanum

/-- The character set `main` makes `brute_force` search over. -/
def main_chars (password : String) : List Char :=
  charsFor (need_digits password) (need_symbols password)

/-- The orchestration in `main` (lines 95-123), with the wordlist-open
outcome as explicit input: on a `common_guess` hit report it, otherwise run
`brute_force` at the password's exact length (the `for i in
range(pw_len, pw_len + 1)` loop performs a single iteration) with the
5 000 000-attempt safety cap, reporting its message or "There was no
match...".  The second component records whether `brute_force` was invoked. -/
def mainRun (password : String) (src : OpenOutcome) :
    Except String (String × Bool) :=
  match common_guess password src with
  | .error e => .error e
  | .ok (some common) => .ok (common, false)
  | .ok none =>
    match brute_force password password.length
        (need_digits password) (need_symbols password) (some 5000000) with
    | some result => .ok (result, true)
    | none => .ok ("There was no match...", true)

/-- Position of the first occurrence of `a` in a list (the list's length
when `a` is absent). -/
def idxIn {α : Type} [DecidableEq α] (a : α) : List α → Nat
  | [] => 0
  | b :: l => if b = a then 0 else idxIn a l + 1

/-- Spec-side definition (SS4.3, SS8 "rank correspondence"): the 0-based
mixed-radix value of a tuple, digit order given by the alphabet's own
character order, leftmost position most significant. -/
def lexRankAux (chars : List Char) : List Char → Nat
  | [] => 0
  | c :: rest =>
    idxIn c chars * chars.length ^ rest.length + lexRankAux chars rest

/-- Spec-side definition: the 1-based lexicographic rank of a tuple among
all tuples of its length over `chars`. -/
def lexRank (chars : List Char) (w : List Char) : Nat := lexRankAux chars w + 1

/-! ### Lemmas about `idxIn` -/

theorem idxIn_cons_self {α : Type} [DecidableEq α] (a : α) (l : List α) :
    idxIn a (a :: l) = 0 := by
  simp [idxIn]

theorem idxIn_cons_ne {α : Type} [DecidableEq α] {a b : α} (l : List α)
    (h : b ≠ a) : idxIn a (b :: l) = idxIn a l + 1 := by
  simp [idxIn, h]

theorem idxIn_append_of_mem {α : Type} [DecidableEq α] {a : α}
    {l₁ : List α} (l₂ : List α) (h : a ∈ l₁) :
    idxIn a (l₁ ++ l₂) = idxIn a l₁ := by
  induction l₁ with
  | nil => cases h
  | cons b l₁ ih =>
    by_cases hb : b = a
    · subst hb
      simp [idxIn]
    · have ha : a ∈ l₁ := by
        rcases List.mem_cons.mp h with rfl | h'
        · exact absurd rfl hb
        · exact h'
      simp [idxIn, hb, ih ha]

theorem idxIn_append_of_not_mem {α : Type} [DecidableEq α] {a : α}
    {l₁ : List α} (l₂ : List α) (h : a ∉ l₁) :
    idxIn a (l₁ ++ l₂) = l₁.length + idxIn a l₂ := by
  induction l₁ with
  | nil => simp
  | cons b l₁ ih =>
    have hb : b ≠ a := fun hba => h (hba ▸ List.mem_cons_self b l₁)
    have ha : a ∉ l₁ := fun ha => h (List.mem_cons_of_mem b ha)
    rw [List.cons_append, idxIn_cons_ne _ hb, ih ha, List.length_cons]
    omega

theorem exists_idxIn_decomp {α : Type} [DecidableEq α] {a : α} {l : List α}
    (h : a ∈ l) :
    ∃ l₁ l₂, l = l₁ ++ a :: l₂ ∧ a ∉ l₁ ∧ l₁.length = idxIn a l := by
  induction l with
  | nil => cases h
  | cons b l ih =>
    by_cases hb : b = a
    · subst hb
      exact ⟨[], l, rfl, by simp, by simp [idxIn]⟩
    · have ha : a ∈ l := by
        rcases List.mem_cons.mp h with rfl | h'
        · exact absurd rfl hb
        · exact h'
      obtain ⟨l₁, l₂, rfl, hnot, hlen⟩ := ih ha
      refine ⟨b :: l₁, l₂, rfl, ?_, ?_⟩
      · intro hmem
        rcases List.mem_cons.mp hmem with rfl | h'
        · exact hb rfl
        · exact hnot h'
      · simp [idxIn_cons_ne _ hb, hlen]

theorem idxIn_get_self {α : Type} [DecidableEq α] {l : List α}
    (hnd : l.Nodup) (i : Nat) (hi : i < l.length) :
    idxIn (l.get ⟨i, hi⟩) l = i := by
  induction l generalizing i with
  | nil => cases hi
  | cons b l ih =>
    obtain ⟨hb, hnd'⟩ := List.nodup_cons.mp hnd
    cases i with
    | zero => simp [idxIn]
    | succ i =>
      have hi' : i < l.length := Nat.lt_of_succ_lt_succ hi
      have hget : (b :: l).get ⟨i + 1, hi⟩ = l.get ⟨i, hi'⟩ := rfl
      have hne : b ≠ l.get ⟨i, hi'⟩ := fun hb' => hb (hb' ▸ l.get_mem _ _)
      rw [hget, idxIn_cons_ne _ hne, ih hnd' i hi']

/-! ### Structural lemmas about the candidate enumeration -/

theorem sum_map_const {α : Type} (l : List α) (n : Nat) :
    (l.map fun _ => n).sum = l.length * n := by
  induction l with
  | nil => simp
  | cons b l ih => simp [ih, Nat.succ_mul, Nat.add_comm]

theorem length_product (chars : List Char) (n : Nat) :
    (product chars n).length = chars.length ^ n := by
  induction n with
  | zero => rfl
  | succ n ih =>
    simp only [product, List.length_flatMap, Function.comp_def, List.length_map,
      ih, sum_map_const]
    rw [pow_succ, Nat.mul_comm]

theorem mem_product {chars : List Char} {n : Nat} {w : List Char} :
    w ∈ product chars n ↔ w.length = n ∧ ∀ c ∈ w, c ∈ chars := by
  induction n generalizing w with
  | zero =>
    simp only [product, List.mem_singleton, List.length_eq_zero]
    constructor
    · rintro rfl; simp
    · rintro ⟨rfl, -⟩; rfl
  | succ n ih =>
    simp only [product, List.mem_flatMap, List.mem_map]
    constructor
    · rintro ⟨c, hc, t, ht, rfl⟩
      obtain ⟨hlen, hmem⟩ := ih.mp ht
      refine ⟨by simp [hlen], ?_⟩
      intro x hx
      rcases List.mem_cons.mp hx with rfl | hx
      · exact hc
      · exact hmem x hx
    · rintro ⟨hlen, hmem⟩
      cases w with
      | nil => simp at hlen
      | cons c t =>
        refine ⟨c, hmem c (List.mem_cons_self c t), t, ih.mpr ⟨?_, ?_⟩, rfl⟩
        · simpa using hlen
        · exact fun x hx => hmem x (List.mem_cons_of_mem c hx)

theorem nodup_product {chars : List Char} (h : chars.Nodup) (n : Nat) :
    (product chars n).Nodup := by
  induction n with
  | zero => simp [product]
  | succ n ih =>
    rw [product, List.nodup_flatMap]
    constructor
    · intro c _
      exact ih.map fun t₁ t₂ ht => by injection ht
    · refine h.imp ?_
      intro c₁ c₂ hne
      intro x hx₁ hx₂
      obtain ⟨t₁, -, rfl⟩ := List.mem_map.mp hx₁
      obtain ⟨t₂, -, heq⟩ := List.mem_map.mp hx₂
      exact hne (by injection heq with h1 h2; exact h1.symm)

theorem idxIn_map_cons (c : Char) (t : List Char) (B : List (List Char)) :
    idxIn (c :: t) (B.map fun u => c :: u) = idxIn t B := by
  induction B with
  | nil => rfl
  | cons b B ih =>
    by_cases hb : b = t
    · subst hb
      simp [idxIn]
    · have hb' : c :: b ≠ c :: t := fun h => hb (by injection h)
      rw [List.map_cons, idxIn_cons_ne _ hb', idxIn_cons_ne _ hb, ih]

theorem idxIn_flatMap_cons (cs : List Char) (c : Char) (t : List Char)
    (B : List (List Char)) (hc : c ∈ cs) (ht : t ∈ B) :
    idxIn (c :: t) (cs.flatMap fun x => B.map fun u => x :: u) =
      idxIn c cs * B.length + idxIn t B := by
  induction cs with
  | nil => cases hc
  | cons c₀ cs ih =>
    rw [List.flatMap_cons]
    by_cases h0 : c₀ = c
    · subst h0
      rw [idxIn_append_of_mem _ (List.mem_map.mpr ⟨t, ht, rfl⟩),
        idxIn_map_cons, idxIn_cons_self, Nat.zero_mul, Nat.zero_add]
    · have hnot : (c :: t) ∉ B.map fun u => c₀ :: u := by
        intro hmem
        obtain ⟨u, -, heq⟩ := List.mem_map.mp hmem
        exact h0 (by injection heq)
      have hc' : c ∈ cs := by
        rcases List.mem_cons.mp hc with rfl | h
        · exact absurd rfl h0
        · exact h
      rw [idxIn_append_of_not_mem _ hnot, List.length_map,
        ih hc', idxIn_cons_ne _ h0, Nat.succ_mul]
      ring

theorem idxIn_product {chars : List Char} {w : List Char}
    (h : ∀ c ∈ w, c ∈ chars) :
    idxIn w (product chars w.length) = lexRankAux chars w := by
  induction w with
  | nil => rfl
  | cons c t ih =>
    have hc : c ∈ chars := h c (List.mem_cons_self c t)
    have ht : ∀ x ∈ t, x ∈ chars := fun x hx => h x (List.mem_cons_of_mem c hx)
    have htB : t ∈ product chars t.length := mem_product.mpr ⟨rfl, ht⟩
    show idxIn (c :: t) (product chars (t.length + 1)) = _
    rw [product, idxIn_flatMap_cons chars c t _ hc htB, ih ht,
      length_product, lexRankAux]

theorem charsFor_nodup (d s : Bool) : (charsFor d s).Nodup := by
  cases d <;> cases s <;> decide

theorem mk_eq_iff {g : List Char} {word : String} :
    String.mk g = word ↔ g = word.toList := by
  constructor
  · intro h
    cases word with
    | mk data => injection h
  · rintro rfl
    rfl

/-! ### Behaviour of the brute-force loop -/

theorem bfLoop_cons (word : String) (b : Option Nat) (a : Nat)
    (g : List Char) (rest : List (List Char)) :
    bfLoop word b a (g :: rest) =
      if String.mk g = word then (some (crackedMsg word (a + 1)), a + 1)
      else
        match b with
        | some k => if k ≤ a + 1 then (none, a + 1) else bfLoop word b (a + 1) rest
        | none => bfLoop word b (a + 1) rest := rfl

theorem bfLoop_no_match_none (word : String) :
    ∀ {gs : List (List Char)}, (∀ g ∈ gs, String.mk g ≠ word) →
    ∀ (b : Option Nat) (a : Nat), (bfLoop word b a gs).1 = none := by
  intro gs
  induction gs with
  | nil => intro _ b a; rfl
  | cons g rest ih =>
    intro h b a
    have hg := h g (List.mem_cons_self g rest)
    have hrest : ∀ x ∈ rest, String.mk x ≠ word :=
      fun x hx => h x (List.mem_cons_of_mem g hx)
    rw [bfLoop_cons, if_neg hg]
    cases b with
    | none => exact ih hrest none (a + 1)
    | some k =>
      by_cases hk : k ≤ a + 1
      · simp [hk]
      · simp only [if_neg hk]
        exact ih hrest (some k) (a + 1)

theorem bfLoop_exhaust (word : String) :
    ∀ {gs : List (List Char)}, (∀ g ∈ gs, String.mk g ≠ word) →
    ∀ (a : Nat), bfLoop word none a gs = (none, a + gs.length) := by
  intro gs
  induction gs with
  | nil => intro _ a; rfl
  | cons g rest ih =>
    intro h a
    have hg := h g (List.mem_cons_self g rest)
    have hrest : ∀ x ∈ rest, String.mk x ≠ word :=
      fun x hx => h x (List.mem_cons_of_mem g hx)
    rw [bfLoop_cons, if_neg hg, ih hrest (a + 1)]
    simp only [List.length_cons]
    congr 1
    omega

theorem bfLoop_budget_stop (word : String) :
    ∀ {l₁ : List (List Char)} (l₂ : List (List Char)) (a k : Nat),
    (∀ g ∈ l₁, String.mk g ≠ word) → a < k → k ≤ a + l₁.length →
    bfLoop word (some k) a (l₁ ++ l₂) = (none, k) := by
  intro l₁
  induction l₁ with
  | nil =>
    intro l₂ a k _ hak hka
    simp only [List.length_nil, Nat.add_zero] at hka
    omega
  | cons g rest ih =>
    intro l₂ a k h hak hka
    have hg := h g (List.mem_cons_self g rest)
    have hrest : ∀ x ∈ rest, String.mk x ≠ word :=
      fun x hx => h x (List.mem_cons_of_mem g hx)
    rw [List.cons_append, bfLoop_cons, if_neg hg]
    by_cases hk : k ≤ a + 1
    · have : k = a + 1 := by omega
      simp [hk, this]
    · simp only [if_neg hk]
      refine ih l₂ (a + 1) k hrest (by omega) ?_
      simp only [List.length_cons] at hka
      omega

theorem bfLoop_found (word : String) :
    ∀ {pre : List (List Char)} (g₀ : List Char) (suf : List (List Char))
    (a : Nat) (b : Option Nat),
    (∀ g ∈ pre, String.mk g ≠ word) → String.mk g₀ = word →
    (∀ k, b = some k → a + pre.length + 1 ≤ k) →
    bfLoop word b a (pre ++ g₀ :: suf) =
      (some (crackedMsg word (a + pre.length + 1)), a + pre.length + 1) := by
  intro pre
  induction pre with
  | nil =>
    intro g₀ suf a b _ hg₀ _
    rw [List.nil_append, bfLoop_cons, if_pos hg₀]
    simp
  | cons g rest ih =>
    intro g₀ suf a b h hg₀ hb
    have hg := h g (List.mem_cons_self g rest)
    have hrest : ∀ x ∈ rest, String.mk x ≠ word :=
      fun x hx => h x (List.mem_cons_of_mem g hx)
    have hlen : a + (g :: rest).length + 1 = (a + 1) + rest.length + 1 := by
      simp only [List.length_cons]
      omega
    rw [List.cons_append, bfLoop_cons, if_neg hg]
    cases b with
    | none =>
      rw [hlen]
      exact ih g₀ suf (a + 1) none hrest hg₀ (by intro k hk; cases hk)
    | some k =>
      have hk1 : a + (g :: rest).length + 1 ≤ k := hb k rfl
      have hk : ¬ k ≤ a + 1 := by
        simp only [List.length_cons] at hk1
        omega
      simp only [if_neg hk]
      rw [hlen]
      refine ih g₀ suf (a + 1) (some k) hrest hg₀ ?_
      intro k' hk'
      injection hk' with he
      subst he
      simp only [List.length_cons] at hk1
      omega

/-! ### Bridge lemmas: runs of `brute_force` in terms of ranks -/

theorem mk_ne_of_not_mem {word : String} {chars : List Char} {L : Nat}
    (h : ¬ (word.length = L ∧ ∀ c ∈ word.toList, c ∈ chars)) :
    ∀ g ∈ product chars L, String.mk g ≠ word := by
  intro g hg hmk
  obtain rfl := mk_eq_iff.mp hmk
  exact h (mem_product.mp hg)

theorem brute_force_run_found (word : String) (d s : Bool) (b : Option Nat)
    (h : ∀ c ∈ word.toList, c ∈ charsFor d s)
    (hb : ∀ k, b = some k → lexRank (charsFor d s) word.toList ≤ k) :
    brute_force_run word word.length d s b =
      (some (crackedMsg word (lexRank (charsFor d s) word.toList)),
        lexRank (charsFor d s) word.toList) := by
  have hmem : word.toList ∈ product (charsFor d s) word.length :=
    mem_product.mpr ⟨rfl, h⟩
  obtain ⟨pre, suf, hdecomp, hnot, hlen⟩ := exists_idxIn_decomp hmem
  have hrank : idxIn word.toList (product (charsFor d s) word.length) =
      lexRankAux (charsFor d s) word.toList := idxIn_product h
  have hpre : ∀ g ∈ pre, String.mk g ≠ word := by
    intro g hg hmk
    obtain rfl := mk_eq_iff.mp hmk
    exact hnot hg
  have hpl : pre.length = lexRankAux (charsFor d s) word.toList :=
    hlen.trans hrank
  have := bfLoop_found word word.toList suf 0 b hpre (mk_eq_iff.mpr rfl)
    (by intro k hk; have := hb k hk; rw [lexRank] at this; omega)
  rw [brute_force_run, hdecomp, this, hpl, lexRank]
  simp

theorem brute_force_run_budget (word : String) (d s : Bool) (k : Nat)
    (h : ∀ c ∈ word.toList, c ∈ charsFor d s) (h0 : 0 < k)
    (hk : k < lexRank (charsFor d s) word.toList) :
    brute_force_run word word.length d s (some k) = (none, k) := by
  have hmem : word.toList ∈ product (charsFor d s) word.length :=
    mem_product.mpr ⟨rfl, h⟩
  obtain ⟨pre, suf, hdecomp, hnot, hlen⟩ := exists_idxIn_decomp hmem
  have hrank : idxIn word.toList (product (charsFor d s) word.length) =
      lexRankAux (charsFor d s) word.toList := idxIn_product h
  have hpre : ∀ g ∈ pre, String.mk g ≠ word := by
    intro g hg hmk
    obtain rfl := mk_eq_iff.mp hmk
    exact hnot hg
  have hpl : pre.length = lexRankAux (charsFor d s) word.toList :=
    hlen.trans hrank
  rw [brute_force_run, hdecomp]
  refine bfLoop_budget_stop word (word.toList :: suf) 0 k hpre h0 ?_
  rw [lexRank] at hk
  omega

theorem brute_force_run_exhaust (word : String) (L : Nat) (d s : Bool)
    (h : ¬ (word.length = L ∧ ∀ c ∈ word.toList, c ∈ charsFor d s)) :
    brute_force_run word L d s none = (none, (charsFor d s).length ^ L) := by
  rw [brute_force_run,
    bfLoop_exhaust word (mk_ne_of_not_mem h) 0, length_product]
  simp

/-! ### The claims -/

/-- C1: for every target of length L composed only of characters of the
constructed character set, the unbudgeted brute-force search (run at the
target's own length, as `main` does) returns the cracked message with an
attempt count equal to the target's 1-based lexicographic rank among all
A^L length-L strings under the character set's own order, leftmost position
most significant; moreover the enumeration visits candidates in exactly
that order: the candidate at 0-based position `i` has rank `i + 1`. -/
theorem claim_C1 (word : String) (d s : Bool)
    (h : ∀ c ∈ word.toList, c ∈ charsFor d s) :
    brute_force_run word word.length d s none =
      (some (crackedMsg word (lexRank (charsFor d s) word.toList)),
        lexRank (charsFor d s) word.toList) ∧
    ∀ (i : Nat) (hi : i < (product (charsFor d s) word.length).length),
      lexRank (charsFor d s)
        ((product (charsFor d s) word.length).get ⟨i, hi⟩) = i + 1 := by
  constructor
  · exact brute_force_run_found word d s none h (by intro k hk; cases hk)
  · intro i hi
    have hmem : (product (charsFor d s) word.length).get ⟨i, hi⟩ ∈
        product (charsFor d s) word.length := List.get_mem _ _ _
    obtain ⟨hglen, hgmem⟩ := mem_product.mp hmem
    have hidx : idxIn ((product (charsFor d s) word.length).get ⟨i, hi⟩)
        (product (charsFor d s) word.length) = i :=
      idxIn_get_self (nodup_product (charsFor_nodup d s) _) i hi
    have hprod : idxIn ((product (charsFor d s) word.length).get ⟨i, hi⟩)
        (product (charsFor d s)
          ((product (charsFor d s) word.length).get ⟨i, hi⟩).length) =
        lexRankAux (charsFor d s)
          ((product (charsFor d s) word.length).get ⟨i, hi⟩) :=
      idxIn_product hgmem
    rw [hglen] at hprod
    rw [lexRank, hprod.symm, hidx]

/-- C1 witness: the target `"ab"` over the plain lowercase alphabet is
cracked with an attempt count equal to its rank (which is 2). -/
theorem claim_C1_witness :
    brute_force_run "ab" "ab".length false false none =
      (some (crackedMsg "ab" (lexRank (charsFor false false) "ab".toList)),
        lexRank (charsFor false false) "ab".toList) ∧
    lexRank (charsFor false false) "ab".toList = 2 :=
  ⟨(claim_C1 "ab" false false (by decide)).1, by decide⟩

/-- C2: with a positive budget K, a target of rank R > K makes the budgeted
run stop with the non-found outcome after exactly K attempts, while a target
of rank R ≤ K is found with attempt count R regardless of K. -/
theorem claim_C2 (word : String) (d s : Bool) (K : Nat) (hK : 0 < K)
    (h : ∀ c ∈ word.toList, c ∈ charsFor d s) :
    (K < lexRank (charsFor d s) word.toList →
      brute_force_run word word.length d s (some K) = (none, K)) ∧
    (lexRank (charsFor d s) word.toList ≤ K →
      brute_force_run word word.length d s (some K) =
        (some (crackedMsg word (lexRank (charsFor d s) word.toList)),
          lexRank (charsFor d s) word.toList)) := by
  constructor
  · intro hlt
    exact brute_force_run_budget word d s K h hK hlt
  · intro hle
    refine brute_force_run_found word d s (some K) h ?_
    intro k hk
    injection hk with he
    subst he
    exact hle

/-- C2 witness: `"ba"` has rank 27 over the lowercase alphabet, so budget 1
stops at `(none, 1)`; `"ab"` has rank 2 ≤ 2, so budget 2 still finds it. -/
theorem claim_C2_witness :
    brute_force_run "ba" "ba".length false false (some 1) = (none, 1) ∧
    brute_force_run "ab" "ab".length false false (some 2) =
      (some (crackedMsg "ab" (lexRank (charsFor false false) "ab".toList)),
        lexRank (charsFor false false) "ab".toList) :=
  ⟨(claim_C2 "ba" false false 1 (by decide) (by decide)).1 (by decide),
    (claim_C2 "ab" false false 2 (by decide) (by decide)).2 (by decide)⟩

/-- C3: a target not expressible as a length-L string over the constructed
character set makes the unbudgeted run terminate with the non-found outcome
after exactly A^L attempts, A the character-set size. -/
theorem claim_C3 (word : String) (L : Nat) (d s : Bool)
    (h : ¬ (word.length = L ∧ ∀ c ∈ word.toList, c ∈ charsFor d s)) :
    brute_force_run word L d s none = (none, (charsFor d s).length ^ L) := by
  exact brute_force_run_exhaust word L d s h

/-- C3 witness: `"A"` is not expressible over the lowercase alphabet, and
the unbudgeted length-1 run ends at `(none, 26^1)`. -/
theorem claim_C3_witness :
    brute_force_run "A" 1 false false none =
      (none, (charsFor false false).length ^ 1) :=
  claim_C3 "A" 1 false false (by decide)

/-- C4 counterexample: two runs ending in different non-found terminal
conditions — exhausting the full 26-candidate space (26 attempts) versus
hitting a budget of 5 (5 attempts) — return the very same value `none`;
the non-found outcomes are not distinct result values. -/
theorem claim_C4_counterexample :
    brute_force_run "A" 1 false false none = (none, 26) ∧
    brute_force_run "A" 1 false false (some 5) = (none, 5) ∧
    brute_force "A" 1 false false none = brute_force "A" 1 false false (some 5) :=
  ⟨by decide, by decide, by decide⟩

/-- C4 (amended): only a successful find is distinguishable to the caller:
every non-found terminal condition returns the identical value `None`.  In
particular, for a target outside the space, the exhausting unbudgeted run
and any budgeted run return equal values. -/
theorem claim_C4_amended (word : String) (L : Nat) (d s : Bool) (K : Nat)
    (h : ¬ (word.length = L ∧ ∀ c ∈ word.toList, c ∈ charsFor d s)) :
    brute_force word L d s none = none ∧
    brute_force word L d s (some K) = none ∧
    brute_force word L d s none = brute_force word L d s (some K) := by
  have hne := mk_ne_of_not_mem h
  have h1 : brute_force word L d s none = none :=
    bfLoop_no_match_none word hne none 0
  have h2 : brute_force word L d s (some K) = none :=
    bfLoop_no_match_none word hne (some K) 0
  exact ⟨h1, h2, h1.trans h2.symm⟩

/-- C4 amended witness: a length-2 run on the inexpressible target `"A"`
returns `None` both unbudgeted and with budget 7, and the values agree. -/
theorem claim_C4_witness :
    brute_force "A" 2 false false none = none ∧
    brute_force "A" 2 false false (some 7) = none ∧
    brute_force "A" 2 false false none = brute_force "A" 2 false false (some 7) :=
  claim_C4_amended "A" 2 false false 7 (by decide)

/-- C5: the lookup returns absence (not an error) when the wordlist file
does not exist, while any other I/O failure while opening or reading is
propagated to the caller as an error carrying that failure, never masked as
absence. -/
theorem claim_C5 (word : String) :
    common_guess word .fileNotFound = .ok none ∧
    ∀ e : String, common_guess word (.ioError e) = .error e :=
  ⟨rfl, fun _ => rfl⟩

theorem common_guess_scan_not_mem {word : String} {lines : List String}
    (h : word ∉ lines) : ∀ i, common_guess_scan word lines i = none := by
  induction lines with
  | nil => intro i; rfl
  | cons w rest ih =>
    intro i
    have hw : w ≠ word := fun hww => h (hww ▸ List.mem_cons_self w rest)
    have hrest : word ∉ rest := fun hr => h (List.mem_cons_of_mem w hr)
    rw [common_guess_scan, if_neg hw]
    exact ih hrest (i + 1)

theorem common_guess_scan_found {word : String} {pre : List String}
    (suf : List String) (h : word ∉ pre) :
    ∀ i, common_guess_scan word (pre ++ word :: suf) i =
      some (matchMsg word (i + pre.length)) := by
  induction pre with
  | nil =>
    intro i
    rw [List.nil_append, common_guess_scan, if_pos rfl]
    simp
  | cons w rest ih =>
    intro i
    have hw : w ≠ word := fun hww => h (hww ▸ List.mem_cons_self w rest)
    have hrest : word ∉ rest := fun hr => h (List.mem_cons_of_mem w hr)
    rw [List.cons_append, common_guess_scan, if_neg hw, ih hrest (i + 1)]
    simp only [List.length_cons]
    have harith : i + 1 + rest.length = i + (rest.length + 1) := by omega
    rw [harith]

/-- C6: when the wordlist contains a line equal (case-sensitively) to the
target, the lookup returns the 1-based position and text of the first such
line, and the result does not depend on anything after that line (the
suffix is arbitrary and absent from the result); with no matching line it
returns absence. -/
theorem claim_C6 (word : String) (pre suf lines : List String) :
    (word ∉ pre →
      common_guess word (.ok (pre ++ word :: suf)) =
        .ok (some (matchMsg word (pre.length + 1)))) ∧
    (word ∉ lines → common_guess word (.ok lines) = .ok none) := by
  constructor
  · intro h
    rw [common_guess, common_guess_scan_found suf h 1, Nat.add_comm]
  · intro h
    rw [common_guess, common_guess_scan_not_mem h 1]

/-- C6 witness: in the spec's scenario 1 wordlist the target is found at
line 3, whatever is appended after it (here nothing). -/
theorem claim_C6_witness :
    common_guess "target123"
        (.ok (["xylophone", "correcthorse"] ++ "target123" :: [])) =
      .ok (some (matchMsg "target123" (["xylophone", "correcthorse"].length + 1))) :=
  (claim_C6 "target123" ["xylophone", "correcthorse"] [] []).1 (by decide)

/-- C7: the character set used by the search always begins with the 26
lowercase letters in a-z order; the 10 digits in 0-9 order are appended iff
the target contains a digit character; the punctuation set is appended after
that iff the target contains a non-alphanumeric character. -/
theorem claim_C7 (password : String) :
    main_chars password =
      ascii_lowercase ++
        (if need_digits password then string_digits else []) ++
        (if need_symbols password then punctuation else []) ∧
    (need_digits password = true ↔ ∃ c ∈ password.toList, c.isDigit) ∧
    (need_symbols password = true ↔ ∃ c ∈ password.toList, ¬ c.isAlphanum) := by
  refine ⟨?_, ?_, ?_⟩
  · cases hd : need_digits password <;> cases hs : need_symbols password <;>
      simp [main_chars, charsFor, hd, hs]
  · simp [need_digits, List.any_eq_true]
  · simp [need_symbols, List.any_eq_true]

/-- C8: when the dictionary lookup yields a match, the orchestrator reports
that match and the brute-force engine is never invoked (the invocation flag
of the orchestration model stays `false`). -/
theorem claim_C8 (password m : String) (src : OpenOutcome)
    (h : common_guess password src = .ok (some m)) :
    mainRun password src = .ok (m, false) := by
  simp only [mainRun, h]

/-- C8 witness: with the spec's scenario 1 wordlist, `main` reports the
line-3 dictionary hit and the engine flag stays `false`. -/
theorem claim_C8_witness :
    mainRun "target123" (.ok ["xylophone", "correcthorse", "target123"]) =
      .ok ("common match: target123 (#3)", false) :=
  claim_C8 "target123" "common match: target123 (#3)"
    (.ok ["xylophone", "correcthorse", "target123"]) rfl

/-- C9: every candidate the engine materializes and compares at requested
length L comes from the enumeration `product`, all of whose members have
length exactly L, and which contains no duplicates — so no candidate is
compared twice in one run. -/
theorem claim_C9 (d s : Bool) (L : Nat) :
    (∀ g ∈ product (charsFor d s) L, g.length = L) ∧
    (product (charsFor d s) L).Nodup :=
  ⟨fun _ hg => (mem_product.mp hg).1, nodup_product (charsFor_nodup d s) L⟩

/-- C10: a target containing a character outside the constructed character
set can never produce a found outcome: every run returns `None`, whether by
exhaustion or by budget; in particular no uppercase letter is ever in the
character set. -/
theorem claim_C10 (word : String) (L : Nat) (d s : Bool) (b : Option Nat)
    (h : ∃ c ∈ word.toList, c ∉ charsFor d s) :
    brute_force word L d s b = none ∧ ∀ c ∈ charsFor d s, ¬ c.isUpper := by
  constructor
  · have hne : ∀ g ∈ product (charsFor d s) L, String.mk g ≠ word := by
      intro g hg hmk
      obtain rfl := mk_eq_iff.mp hmk
      obtain ⟨c, hc, hcn⟩ := h
      exact hcn ((mem_product.mp hg).2 c hc)
    exact bfLoop_no_match_none word hne b 0
  · cases d <;> cases s <;> decide

/-- C10 witness: the uppercase-containing target `"Zx"` is not found by a
budgeted length-2 run, and the lowercase-only character set holds no
uppercase letter. -/
theorem claim_C10_witness :
    brute_force "Zx" 2 false false (some 3) = none ∧
    ∀ c ∈ charsFor false false, ¬ c.isUpper :=
  claim_C10 "Zx" 2 false false (some 3) ⟨'Z', by decide, by decide⟩

end BruteForce
